import Mathlib

/-!
Verification of the meme-generator backend (`app.py`) against its
natural-language specification.  The program text is shallowly embedded:
strings are `List Char`, images are finite rasters with a pixel function,
and the external Pillow / font / model capabilities are either given
concrete per-pixel semantics (where the library documents them) or taken
as explicit parameters.  All Python integer arithmetic (`//`, `int(...)`)
is modelled with `Nat` / `Int` / `ℚ` floors and truncations.
-/

/-! ### Python string primitives -/

/-- Python `str.isspace` restricted to the ASCII whitespace characters that
can appear in the strings this program manipulates. -/
def pyIsSpace (c : Char) : Bool :=
  c == ' ' || c == '\t' || c == '\n' || c == '\r' || c == '\x0b' || c == '\x0c'

/-- Python `str.lower` (per-character lowercasing). -/
def pyLower (s : List Char) : List Char := s.map Char.toLower

/-- Python `str.upper` (per-character uppercasing). -/
def pyUpper (s : List Char) : List Char := s.map Char.toUpper

/-- Python `str.strip(chars)`: remove characters of `chars` from BOTH ends. -/
def pyStrip (chars : List Char) (s : List Char) : List Char :=
  ((s.dropWhile (fun c => chars.contains c)).reverse.dropWhile
    (fun c => chars.contains c)).reverse

/-- Python `str.strip()` with no argument: remove whitespace from both ends. -/
def pyStripWS (s : List Char) : List Char :=
  ((s.dropWhile pyIsSpace).reverse.dropWhile pyIsSpace).reverse

/-- Removal of trailing whitespace only (Python `str.rstrip()`), used to state
properties about trailing whitespace. -/
def pyRStrip (s : List Char) : List Char :=
  (s.reverse.dropWhile pyIsSpace).reverse

/-- Python `str.split("\n")`: split at every newline, keeping empty pieces. -/
def splitNl : List Char → List (List Char)
  | [] => [[]]
  | c :: cs =>
    if c = '\n' then [] :: splitNl cs
    else
      match splitNl cs with
      | [] => [[c]]
      | l :: ls => (c :: l) :: ls

/-- Worker for Python `str.split()` (no argument): split on runs of
whitespace, dropping empty pieces.  `cur` is the current word, reversed. -/
def pyWordsAux : List Char → List Char → List (List Char)
  | [], cur => if cur = [] then [] else [cur.reverse]
  | c :: cs, cur =>
    if pyIsSpace c then
      if cur = [] then pyWordsAux cs [] else cur.reverse :: pyWordsAux cs []
    else pyWordsAux cs (c :: cur)

/-- Python `str.split()` with no argument. -/
def pyWords (s : List Char) : List (List Char) := pyWordsAux s []

/-- Join a list of strings with single spaces. -/
def joinSp : List (List Char) → List Char
  | [] => []
  | [w] => w
  | w :: v :: vs => w ++ ' ' :: joinSp (v :: vs)

/-! ### Suggestion parser (the parsing loop of `generate_captions`,
`app.py` lines 176–195) -/

/-- Result triple returned by `/api/generate-captions`. -/
structure SuggestionResult where
  captions : List (List Char)
  hashtags : List (List Char)
  description : List Char
  deriving Repr, DecidableEq

/-- The characters trimmed from each line: `line.strip("-• ")`. -/
def bullets : List Char := ['-', '•', ' ']

/-- One iteration of the parsing loop (`app.py` lines 181–189). -/
def processLine (st : SuggestionResult) (rawLine : List Char) : SuggestionResult :=
  let line := pyStrip bullets rawLine
  if line = [] then st
  else if line.head? = some '#' then
    { st with hashtags := st.hashtags ++ [pyStrip ['#'] line] }
  else if st.captions.length < 3 then
    { st with captions := st.captions ++ [line] }
  else
    { st with description := st.description ++ line ++ [' '] }

/-- The suggestion parser: split on newlines, fold the loop body over the
lines (guarded by `if text:`), then `description.strip()` at the end
(`app.py` lines 176–195). -/
def parse_suggestions (raw : List Char) : SuggestionResult :=
  let st :=
    if raw = [] then (⟨[], [], []⟩ : SuggestionResult)
    else (splitNl raw).foldl processLine ⟨[], [], []⟩
  ⟨st.captions, st.hashtags, pyStripWS st.description⟩

example :
    parse_suggestions ("one\ntwo\nthree\n#funny\n#meme\nA desc\nmore".data)
      = ⟨["one".data, "two".data, "three".data], ["funny".data, "meme".data],
          "A desc more".data⟩ := by
  decide

/-! ### Greedy word wrap (`wrap_text`, `app.py` lines 96–110)

The pixel width of a rendered string (`draw.textbbox`) is an external font
capability, taken as a parameter `tw`; the wrap limit (`int(W * 0.9)`) is
likewise passed in. -/

/-- The wrapping loop of `wrap_text`: `current` is the line being
accumulated, the word list is what remains of `txt.split()`. -/
def wrapAux (tw : List Char → Nat) (limit : Nat) :
    List (List Char) → List Char → List (List Char)
  | [], current => if current = [] then [] else [current]
  | w :: ws, current =>
    let trial := pyStripWS (current ++ ' ' :: w)
    if tw trial ≤ limit then wrapAux tw limit ws trial
    else if current = [] then wrapAux tw limit ws w
    else current :: wrapAux tw limit ws w

/-- `wrap_text(txt)`: split into words, then run the greedy loop. -/
def wrap_text (tw : List Char → Nat) (limit : Nat) (txt : List Char) :
    List (List Char) :=
  wrapAux tw limit (pyWords txt) []

/-- Proof-level reformulation of the wrapping loop that keeps each line as
its list of words instead of a joined string.  Used to relate the wrap of a
text to the wrap of its re-joined lines. -/
def chunkAux (tw : List Char → Nat) (limit : Nat) :
    List (List Char) → List (List Char) → List (List (List Char))
  | [], cur => if cur = [] then [] else [cur]
  | w :: ws, cur =>
    if tw (joinSp (cur ++ [w])) ≤ limit then chunkAux tw limit ws (cur ++ [w])
    else if cur = [] then chunkAux tw limit ws [w]
    else cur :: chunkAux tw limit ws [w]

/-! ### Image model

An image is a raster of given width and height with a pixel lookup
function; pixels are RGB triples of channel values (0–255).  Pillow point
operations are embedded with their documented per-pixel formulas; rounding
in blended channels is truncating integer division, and the blur kernel is
a clamped-window average standing in for the library's Gaussian (no claim
depends on blurred pixel values, only on dimensions). -/

/-- An RGB pixel. -/
abbrev Pixel := Nat × Nat × Nat

/-- A decoded raster image (mode RGB). -/
structure Image where
  width : Nat
  height : Nat
  px : Nat → Nat → Pixel

/-- An RGBA overlay asset (mode RGBA, last component the alpha channel). -/
structure RGBAImage where
  width : Nat
  height : Nat
  px : Nat → Nat → Nat × Nat × Nat × Nat

/-- ITU-R 601-2 luminance used by Pillow's `convert("L")`. -/
def lum (p : Pixel) : Nat := (299 * p.1 + 587 * p.2.1 + 114 * p.2.2) / 1000

/-- `ImageOps.grayscale(img).convert("RGB")`: luminance expanded back to
three channels. -/
def grayscaleRGB (img : Image) : Image :=
  { img with px := fun x y => let l := lum (img.px x y); (l, l, l) }

/-- One channel of `ImageOps.colorize`: linear interpolation between the
black-point and white-point channel values by gray level. -/
def colorizeCh (bk wt g : Nat) : Nat := bk + g * (wt - bk) / 255

/-- `ImageOps.colorize(ImageOps.grayscale(img), "#704214", "#C0A080")`:
the sepia branch.  `#704214` = (112, 66, 20), `#C0A080` = (192, 160, 128). -/
def sepiaImg (img : Image) : Image :=
  { img with px := fun x y =>
      let g := lum (img.px x y)
      (colorizeCh 112 192 g, colorizeCh 66 160 g, colorizeCh 20 128 g) }

/-- Clamp an integer coordinate into `[0, n)` (edge extension). -/
def clampCoord (n : Nat) (i : Int) : Nat :=
  if i < 0 then 0 else if i ≥ (n : Int) then n - 1 else i.toNat

/-- Sum `f 0 + ... + f (k-1)`. -/
def sumOver (k : Nat) (f : Nat → Nat) : Nat :=
  (List.range k).foldl (fun a i => a + f i) 0

/-- `img.filter(ImageFilter.GaussianBlur(r))`: modelled as a radius-`r`
clamped-window average (the library's Gaussian kernel weights are
abstracted; the spatial extent and the dimensions are faithful). -/
def gaussian_blur (r : Nat) (img : Image) : Image :=
  { img with px := fun x y =>
      let n := (2 * r + 1) * (2 * r + 1)
      let comp := fun (sel : Pixel → Nat) =>
        (sumOver (2 * r + 1) (fun dx => sumOver (2 * r + 1) (fun dy =>
          sel (img.px (clampCoord img.width ((x : Int) + (dx : Int) - (r : Int)))
                (clampCoord img.height ((y : Int) + (dy : Int) - (r : Int))))))) / n
      (comp (fun p => p.1), comp (fun p => p.2.1), comp (fun p => p.2.2)) }

/-- Clamp an integer channel value into 0–255. -/
def clamp255 (n : Int) : Nat := if n < 0 then 0 else if n > 255 then 255 else n.toNat

/-- One channel of `ImageEnhance` blending: `base + factor * (v - base)`,
rounded down and clamped (Pillow blends the image with a degenerate base
image: black for brightness, mean gray for contrast). -/
def enhanceCh (factor : ℚ) (base v : Nat) : Nat :=
  clamp255 (Rat.floor ((base : ℚ) + factor * ((v : ℚ) - (base : ℚ))))

/-- `ImageEnhance.Brightness(img).enhance(factor)`. -/
def brightnessImg (factor : ℚ) (img : Image) : Image :=
  { img with px := fun x y =>
      let p := img.px x y
      (enhanceCh factor 0 p.1, enhanceCh factor 0 p.2.1, enhanceCh factor 0 p.2.2) }

/-- Mean gray level of the image (rounding of the library's statistics
abstracted to truncating division). -/
def imageMean (img : Image) : Nat :=
  (sumOver img.width (fun x => sumOver img.height (fun y => lum (img.px x y))))
    / (img.width * img.height)

/-- `ImageEnhance.Contrast(img).enhance(factor)`. -/
def contrastImg (factor : ℚ) (img : Image) : Image :=
  let m := imageMean img
  { img with px := fun x y =>
      let p := img.px x y
      (enhanceCh factor m p.1, enhanceCh factor m p.2.1, enhanceCh factor m p.2.2) }

/-- Pillow resampling filters (only the one the program passes matters). -/
inductive Resample where
  | nearest : Resample
  | bilinear : Resample
  | lanczos : Resample
  deriving DecidableEq, Repr

/-- The resampling filter passed at `app.py` line 60 (`Image.LANCZOS`). -/
def overlay_resample : Resample := Resample.lanczos

/-- The overlay resize computation of `app.py` lines 58–60:
`scale = W // 2`, `aspect = oh / ow` (true division),
new size `(scale, int(scale * aspect))`. -/
def overlay_new_size (W ow oh : Nat) : Nat × Nat :=
  let scale := W / 2
  let aspect : ℚ := (oh : ℚ) / (ow : ℚ)
  (scale, (Rat.floor ((scale : ℚ) * aspect)).toNat)

/-- `overlay.resize((w, h), mode)`: the target dimensions are faithful; the
resampling kernel itself is external to the program (pixel content of the
resized overlay is never examined by a claim). -/
def resize_overlay (mode : Resample) (ov : RGBAImage) (w h : Nat) : RGBAImage :=
  { width := w, height := h,
    px := fun x y =>
      match mode with
      | _ => ov.px (x * ov.width / w) (y * ov.height / h) }

/-- The name-specific overlay anchor of `app.py` lines 63–70.  `ow`, `oh`
are the dimensions of the resized overlay (used by the centered default). -/
def overlay_pos (name : List Char) (W H ow oh : Nat) : Int × Int :=
  if name = "dog".data then (((W / 5 : Nat) : Int), ((H / 25 : Nat) : Int))
  else if name = "sunglasses".data then (((W / 5 : Nat) : Int), ((H / 4 : Nat) : Int))
  else if name = "flower".data then (((W / 5 : Nat) : Int), 0)
  else (((W / 2 : Nat) : Int) - ((ow / 2 : Nat) : Int),
        ((H / 2 : Nat) : Int) - ((oh / 2 : Nat) : Int))

/-- Alpha blend of an overlay pixel over a base pixel (`img.paste` with the
overlay as its own mask), with truncating division. -/
def blendPx (b : Pixel) (o : Nat × Nat × Nat × Nat) : Pixel :=
  let a := o.2.2.2
  ((o.1 * a + b.1 * (255 - a)) / 255,
   (o.2.1 * a + b.2.1 * (255 - a)) / 255,
   (o.2.2.1 * a + b.2.2 * (255 - a)) / 255)

/-- `img.convert("RGBA"); img.paste(overlay, pos, overlay); img.convert("RGB")`:
pixels covered by the (clipped) overlay rectangle are alpha-blended, the
rest are untouched; dimensions are those of the base image. -/
def paste_rgba (base : Image) (ov : RGBAImage) (pos : Int × Int) : Image :=
  { base with px := fun x y =>
      let ox : Int := (x : Int) - pos.1
      let oy : Int := (y : Int) - pos.2
      if 0 ≤ ox ∧ ox < (ov.width : Int) ∧ 0 ≤ oy ∧ oy < (ov.height : Int) then
        blendPx (base.px x y) (ov.px ox.toNat oy.toNat)
      else base.px x y }

/-- The five built-in tonal transform names of `apply_filter`. -/
def builtins : List (List Char) :=
  ["grayscale".data, "sepia".data, "blur".data, "bright".data, "contrast".data]

/-- `filter_name.lower().strip()` (`app.py` line 35). -/
def normalizeName (s : List Char) : List Char := pyStripWS (pyLower s)

/-- `apply_filter(img, filter_name)` (`app.py` lines 33–77).  `assets`
models the read-only asset store: `assets n` is the decoded RGBA image of
`static/filters/{n}.png` when that file exists, `none` otherwise.  The
enhancement factors `1.4` and `1.8` are embedded as exact rationals. -/
def apply_filter (assets : List Char → Option RGBAImage) (img : Image)
    (filter_name : List Char) : Image :=
  let name := normalizeName filter_name
  if name = "grayscale".data then grayscaleRGB img
  else if name = "sepia".data then sepiaImg img
  else if name = "blur".data then gaussian_blur 3 img
  else if name = "bright".data then brightnessImg (14 / 10 : ℚ) img
  else if name = "contrast".data then contrastImg (18 / 10 : ℚ) img
  else
    match assets name with
    | some overlay =>
      let W := img.width
      let sz := overlay_new_size W overlay.width overlay.height
      let ov2 := resize_overlay overlay_resample overlay sz.1 sz.2
      let pos := overlay_pos name W img.height ov2.width ov2.height
      paste_rgba img ov2 pos
    | none => img

/-! ### Caption rendering (`draw_caption_on_image`, `app.py` lines 79–136)

Font loading and glyph rendering are external capabilities: `loader`
models `ImageFont.truetype` (at the computed base size), `deflt` the
default font, and `metrics` gives a font's text-width function
(`draw.textbbox`), its `"Ay"` line height, and its `draw.text` pixel
effect.  The output is the image to be encoded together with the JPEG
quality. -/

/-- Encoded output: `image.save(out, format="JPEG", quality=92)`. -/
structure Jpeg where
  img : Image
  quality : Nat

/-- The text-rendering capabilities of a resolved font. -/
structure RenderCtx where
  textWidth : List Char → Nat
  lineHeight : Nat
  drawText : Image → Int → Int → List Char → Nat → Image

/-- The ordered font candidates tried at `app.py` line 86. -/
def font_candidates : List (List Char) :=
  ["Impact.ttf".data, "impact.ttf".data, "Arial.ttf".data, "arial.ttf".data]

/-- The font resolution loop with its default-font fallback
(`app.py` lines 85–93). -/
def resolve_font {F : Type} (loader : List Char → Option F) (deflt : F) : F :=
  match font_candidates.findSome? loader with
  | some f => f
  | none => deflt

/-- `draw_caption_on_image(image, text, position)`.  The float constants
`0.9`, `0.25` and `0.05` and the `int(...)` truncations are embedded as
the corresponding integer floor computations; `int((H - total_h) / 2)`
truncates toward zero, hence `Int.tdiv`. -/
def draw_caption_on_image {F : Type} (loader : List Char → Option F) (deflt : F)
    (metrics : F → RenderCtx) (image : Image) (text : List Char)
    (position : List Char) : Jpeg :=
  let W := image.width
  let H := image.height
  let base_size := max 24 (W / 12)
  let font := resolve_font loader deflt
  let ctx := metrics font
  let lines := wrap_text ctx.textWidth (W * 9 / 10) (pyUpper text)
  let lh : Int := (ctx.lineHeight : Int)
  let stroke := max 2 (base_size / 12)
  let gap : Int := ((ctx.lineHeight / 4 : Nat) : Int)
  let total_h : Int := (lines.length : Int) * lh + ((lines.length : Int) - 1) * gap
  let y0 : Int :=
    if position = "top".data then ((H * 5 / 100 : Nat) : Int)
    else if position = "center".data then Int.tdiv ((H : Int) - total_h) 2
    else (H : Int) - total_h - ((H * 5 / 100 : Nat) : Int)
  let final := (lines.foldl
    (fun (acc : Image × Int) line =>
      let twl := ctx.textWidth line
      let x := Int.tdiv ((W : Int) - (twl : Int)) 2
      (ctx.drawText acc.1 x acc.2 line stroke, acc.2 + lh + gap))
    (image, y0)).1
  ⟨final, 92⟩

/-! ### Helper lemmas -/

theorem contains_true_iff (chars : List Char) (c : Char) :
    chars.contains c = true ↔ c ∈ chars := by
  induction chars with
  | nil => simp [List.contains]
  | cons a as ih =>
    simp only [List.contains_cons, Bool.or_eq_true, beq_iff_eq, List.mem_cons, ih]

theorem head?_dropWhile_false {p : Char → Bool} {l : List Char} {c : Char}
    (h : (l.dropWhile p).head? = some c) : p c = false := by
  have h2 := List.head?_dropWhile_not p l
  rw [h] at h2
  exact h2

/-- Characterization of Python `str.strip(chars)`: the result is obtained
from the input by removing a run of characters of `chars` from the front
and a run from the back, and it neither starts nor ends with such a
character. -/
theorem pyStrip_spec (chars s : List Char) :
    ∃ a b, s = a ++ pyStrip chars s ++ b
      ∧ (∀ c ∈ a, c ∈ chars) ∧ (∀ c ∈ b, c ∈ chars)
      ∧ (∀ c, (pyStrip chars s).head? = some c → c ∉ chars)
      ∧ (∀ c, (pyStrip chars s).getLast? = some c → c ∉ chars) := by
  set p := fun c => chars.contains c with hp
  set u := s.dropWhile p with hu
  have hdecomp : u = pyStrip chars s ++ (u.reverse.takeWhile p).reverse := by
    conv_lhs => rw [← List.reverse_reverse u,
      ← List.takeWhile_append_dropWhile (p := p) (l := u.reverse)]
    rw [List.reverse_append]
    rfl
  refine ⟨s.takeWhile p, (u.reverse.takeWhile p).reverse, ?_, ?_, ?_, ?_, ?_⟩
  · rw [List.append_assoc, ← hdecomp, hu, List.takeWhile_append_dropWhile]
  · intro c hc
    exact (contains_true_iff chars c).1 (List.mem_takeWhile_imp hc)
  · intro c hc
    rw [List.mem_reverse] at hc
    exact (contains_true_iff chars c).1 (List.mem_takeWhile_imp hc)
  · intro c hc hmem
    have hcu : u.head? = some c := by
      rcases hs : pyStrip chars s with _ | ⟨d, ds⟩
      · rw [hs] at hc; exact absurd hc (by simp)
      · rw [hs] at hc
        simp only [List.head?_cons, Option.some.injEq] at hc
        rw [hdecomp, hs, hc]
        simp
    have hfalse := head?_dropWhile_false (p := p) (l := s) (by rw [← hu]; exact hcu)
    simp only [hp] at hfalse
    rw [(contains_true_iff chars c).2 hmem] at hfalse
    exact Bool.noConfusion hfalse
  · intro c hc hmem
    have hcv : (u.reverse.dropWhile p).head? = some c := by
      have heq : pyStrip chars s = (u.reverse.dropWhile p).reverse := rfl
      rw [heq, List.getLast?_reverse] at hc
      exact hc
    have hfalse := head?_dropWhile_false hcv
    simp only [hp] at hfalse
    rw [(contains_true_iff chars c).2 hmem] at hfalse
    exact Bool.noConfusion hfalse

theorem dropWhile_idem (p : Char → Bool) (l : List Char) :
    (l.dropWhile p).dropWhile p = l.dropWhile p := by
  induction l with
  | nil => rfl
  | cons c cs ih =>
    by_cases h : p c
    · simp [List.dropWhile_cons, h, ih]
    · simp [List.dropWhile_cons, h]

theorem pyRStrip_pyStripWS (s : List Char) : pyRStrip (pyStripWS s) = pyStripWS s := by
  unfold pyRStrip pyStripWS
  rw [List.reverse_reverse, dropWhile_idem]

theorem pyStrip_nil (chars : List Char) : pyStrip chars [] = [] := rfl

theorem splitNl_no_newline {s : List Char} (h : '\n' ∉ s) : splitNl s = [s] := by
  induction s with
  | nil => rfl
  | cons c cs ih =>
    have hc : ¬ c = '\n' := fun he => h (he ▸ List.mem_cons_self c cs)
    have hcs : '\n' ∉ cs := fun hm => h (List.mem_cons_of_mem c hm)
    rw [splitNl, if_neg hc, ih hcs]

theorem processLine_captions_le (st : SuggestionResult) (l : List Char)
    (h : st.captions.length ≤ 3) : (processLine st l).captions.length ≤ 3 := by
  by_cases h0 : pyStrip bullets l = []
  · simp [processLine, h0, h]
  by_cases hh : (pyStrip bullets l).head? = some '#'
  · simp [processLine, h0, hh, h]
  by_cases h3 : st.captions.length < 3
  · have heq : processLine st l = { st with captions := st.captions ++ [pyStrip bullets l] } := by
      simp [processLine, h0, hh, h3]
    rw [heq]
    simp only [List.length_append, List.length_cons, List.length_nil]
    omega
  · simp [processLine, h0, hh, h3, h]

theorem foldl_processLine_captions_le (ls : List (List Char)) (st : SuggestionResult)
    (h : st.captions.length ≤ 3) : (ls.foldl processLine st).captions.length ≤ 3 := by
  induction ls generalizing st with
  | nil => exact h
  | cons l ls ih => exact ih _ (processLine_captions_le st l h)

/-! ### Claims about the suggestion parser -/

/-- C5: the parser returns at most 3 captions; a trimmed non-empty
non-hashtag line goes to the captions only while fewer than 3 captions
are collected, and afterwards is appended to the description followed by
a space; the final description carries no trailing whitespace. -/
theorem parser_at_most_three_captions (raw : List Char) :
    (parse_suggestions raw).captions.length ≤ 3
    ∧ (∀ (st : SuggestionResult) (rawLine : List Char),
        pyStrip bullets rawLine ≠ [] →
        ¬ (pyStrip bullets rawLine).head? = some '#' →
        (st.captions.length < 3 →
          processLine st rawLine
            = { st with captions := st.captions ++ [pyStrip bullets rawLine] })
        ∧ (3 ≤ st.captions.length →
          processLine st rawLine
            = { st with description :=
                  st.description ++ pyStrip bullets rawLine ++ [' '] }))
    ∧ pyRStrip (parse_suggestions raw).description
        = (parse_suggestions raw).description := by
  refine ⟨?_, ?_, ?_⟩
  · unfold parse_suggestions
    split
    · simp
    · exact foldl_processLine_captions_le _ _ (by simp)
  · intro st rawLine h1 h2
    constructor
    · intro hlt
      simp [processLine, h1, h2, hlt]
    · intro hge
      have h3 : ¬ st.captions.length < 3 := by omega
      simp [processLine, h1, h2, h3]
  · exact pyRStrip_pyStripWS _

theorem parser_at_most_three_captions_witness :
    (parse_suggestions ("a\nb\nc\nd".data)).captions.length ≤ 3
    ∧ processLine ⟨["x".data, "y".data, "z".data], [], []⟩ ("d".data)
        = ⟨["x".data, "y".data, "z".data], [], "d ".data⟩
    ∧ pyRStrip (parse_suggestions ("a\nb\nc\nd".data)).description
        = (parse_suggestions ("a\nb\nc\nd".data)).description := by
  refine ⟨(parser_at_most_three_captions _).1, ?_,
    (parser_at_most_three_captions _).2.2⟩
  have h := ((parser_at_most_three_captions []).2.1
    ⟨["x".data, "y".data, "z".data], [], []⟩ ("d".data)
    (by decide) (by decide)).2 (by decide)
  exact h.trans (by decide)

theorem pyStrip_all_hash_nil {t : List Char} (h : ∀ c ∈ t, c = '#') :
    pyStrip ['#'] t = [] := by
  have h1 : List.dropWhile (fun c => ['#'].contains c) t = [] :=
    List.dropWhile_eq_nil_iff.2 (fun x hx =>
      (contains_true_iff ['#'] x).2 (by simp [h x hx]))
  unfold pyStrip
  rw [h1]
  rfl

/-- C10: a line that, after bullet trimming, is non-empty and consists
entirely of `#` characters appends the empty string to the hashtags. -/
theorem hash_only_line_empty_hashtag (st : SuggestionResult) (rawLine : List Char)
    (h1 : pyStrip bullets rawLine ≠ [])
    (h2 : ∀ c ∈ pyStrip bullets rawLine, c = '#') :
    processLine st rawLine = { st with hashtags := st.hashtags ++ [[]] } := by
  have hstrip : pyStrip ['#'] (pyStrip bullets rawLine) = [] :=
    pyStrip_all_hash_nil h2
  have hhead : (pyStrip bullets rawLine).head? = some '#' := by
    rcases hl : pyStrip bullets rawLine with _ | ⟨c, cs⟩
    · exact absurd hl h1
    · have hc : c = '#' := h2 c (by rw [hl]; exact List.mem_cons_self c cs)
      rw [hc]
      rfl
  simp [processLine, h1, hhead, hstrip]

theorem hash_only_line_empty_hashtag_witness :
    processLine ⟨[], [], []⟩ ("###".data) = ⟨[], [[]], []⟩ :=
  hash_only_line_empty_hashtag _ _ (by decide) (by decide)

/-- C3 counterexample: on the line `#tag#`, the string appended to the
hashtags is NOT the line with only its leading `#` characters removed
(the code's `strip("#")` also removes the trailing `#`). -/
theorem hashtag_strip_leading_only_false :
    ¬ ((parse_suggestions ("#tag#".data)).hashtags
        = [List.dropWhile (fun c => c == '#') ("#tag#".data)]) := by
  decide

theorem pyStrip_hash_spelled (x : List Char) :
    pyStrip ['#'] x
      = ((x.dropWhile (fun c => c == '#')).reverse.dropWhile
          (fun c => c == '#')).reverse := by
  unfold pyStrip
  have hfun : (fun c => List.contains ['#'] c) = (fun c => c == '#') := by
    funext c
    by_cases h : c = '#'
    · simp [h]
    · simp [h, beq_false_of_ne h]
  rw [hfun]

/-- C3 amended: for a single-line input whose bullet-trimmed line starts
with `#`, the appended hashtag entry is the line with leading AND trailing
`#` characters removed. -/
theorem hashtag_strip_both_ends (rawLine : List Char)
    (h0 : '\n' ∉ rawLine)
    (h1 : pyStrip bullets rawLine ≠ [])
    (h2 : (pyStrip bullets rawLine).head? = some '#') :
    (parse_suggestions rawLine).hashtags
      = [(((pyStrip bullets rawLine).dropWhile (fun c => c == '#')).reverse.dropWhile
            (fun c => c == '#')).reverse] := by
  have hr : rawLine ≠ [] := by
    intro h
    rw [h, pyStrip_nil] at h1
    exact h1 rfl
  unfold parse_suggestions
  rw [if_neg hr, splitNl_no_newline h0]
  show (processLine ⟨[], [], []⟩ rawLine).hashtags = _
  rw [← pyStrip_hash_spelled]
  simp [processLine, h1, h2]

theorem hashtag_strip_both_ends_witness :
    (parse_suggestions ("#tag#".data)).hashtags = ["tag".data] := by
  have h := hashtag_strip_both_ends ("#tag#".data) (by decide) (by decide) (by decide)
  exact h.trans (by decide)

/-- C4 counterexample: on the line `hello-`, the caption stored is NOT the
line with only its leading bullet characters trimmed (the code's
`strip("-• ")` also removes the trailing `-`). -/
theorem bullet_trim_leading_only_false :
    ¬ ((parse_suggestions ("hello-".data)).captions = ["hello-".data]) := by
  decide

/-- C4 amended: the per-line preprocessing `line.strip("-• ")` removes a
maximal run of `-`, `•`, space characters from the front AND from the
back of the line (and nothing else). -/
theorem bullet_trim_spec (rawLine : List Char) :
    ∃ a b, rawLine = a ++ pyStrip bullets rawLine ++ b
      ∧ (∀ c ∈ a, c ∈ bullets) ∧ (∀ c ∈ b, c ∈ bullets)
      ∧ (∀ c, (pyStrip bullets rawLine).head? = some c → c ∉ bullets)
      ∧ (∀ c, (pyStrip bullets rawLine).getLast? = some c → c ∉ bullets) :=
  pyStrip_spec bullets rawLine

/-! ### Claims about the filter engine -/

/-- C1: a filter name that, after lowercasing and trimming, matches no
built-in transform and has no asset file is a no-op: the very input image
is returned (the embedded function is total, so no exception path exists). -/
theorem unsupported_filter_passthrough (assets : List Char → Option RGBAImage)
    (img : Image) (filter_name : List Char)
    (hb : normalizeName filter_name ∉ builtins)
    (ha : assets (normalizeName filter_name) = none) :
    apply_filter assets img filter_name = img := by
  unfold apply_filter
  simp only [builtins, List.mem_cons, List.not_mem_nil, or_false, not_or] at hb
  obtain ⟨h1, h2, h3, h4, h5⟩ := hb
  rw [if_neg h1, if_neg h2, if_neg h3, if_neg h4, if_neg h5, ha]

theorem unsupported_filter_passthrough_witness :
    apply_filter (fun _ => none) ⟨2, 2, fun _ _ => (0, 0, 0)⟩ ("nope".data)
      = ⟨2, 2, fun _ _ => (0, 0, 0)⟩ :=
  unsupported_filter_passthrough _ _ _ (by decide) rfl

theorem overlay_new_size_eq (W ow oh : Nat) :
    overlay_new_size W ow oh = (W / 2, W / 2 * oh / ow) := by
  unfold overlay_new_size
  simp only [Prod.mk.injEq, true_and]
  have h1 : ((W / 2 : ℕ) : ℚ) * ((oh : ℚ) / (ow : ℚ))
      = ((W / 2 * oh : ℕ) : ℚ) / ((ow : ℕ) : ℚ) := by
    push_cast
    ring
  have h2 : Rat.floor (((W / 2 : ℕ) : ℚ) * ((oh : ℚ) / (ow : ℚ)))
      = Int.floor (((W / 2 * oh : ℕ) : ℚ) / ((ow : ℕ) : ℚ)) := by
    rw [h1, Rat.floor_def', Rat.floor_def]
  rw [h2, Int.floor_toNat, Nat.floor_div_eq_div]

/-- C2 counterexample: for base width 1001 and an overlay of size 3×2 the
computed overlay size is (500, 333): the new width is not exactly half of
1001 and the new aspect ratio 333/500 differs from 2/3. -/
theorem overlay_resize_exact_ratio_false :
    overlay_new_size 1001 3 2 = (500, 333)
    ∧ ¬ (((overlay_new_size 1001 3 2).1 : ℚ) = (1001 : ℚ) / 2
          ∧ ((overlay_new_size 1001 3 2).2 : ℚ) / ((overlay_new_size 1001 3 2).1 : ℚ)
              = (2 : ℚ) / 3) := by
  have he : overlay_new_size 1001 3 2 = (500, 333) := by
    rw [overlay_new_size_eq]
  refine ⟨he, ?_⟩
  rw [he]
  norm_num

/-- C2 amended: the overlay is resized to width `⌊W/2⌋` and height
`⌊(W/2) · oh / ow⌋` (aspect ratio preserved up to the downward integer
rounding of both dimensions), with Lanczos resampling. -/
theorem overlay_resize_floor_dims (W ow oh : Nat) (_hw : 0 < ow) :
    overlay_new_size W ow oh = (W / 2, W / 2 * oh / ow)
    ∧ overlay_resample = Resample.lanczos :=
  ⟨overlay_new_size_eq W ow oh, rfl⟩

theorem overlay_resize_floor_dims_witness :
    overlay_new_size 10 4 3 = (10 / 2, 10 / 2 * 3 / 4)
    ∧ overlay_resample = Resample.lanczos :=
  overlay_resize_floor_dims 10 4 3 (by decide)

/-- C6: every supported filter (built-in tonal transform or overlay with an
existing asset) preserves the width and height of the input image. -/
theorem apply_filter_preserves_dims (assets : List Char → Option RGBAImage)
    (img : Image) (filter_name : List Char)
    (_h : normalizeName filter_name ∈ builtins
        ∨ (assets (normalizeName filter_name)).isSome) :
    (apply_filter assets img filter_name).width = img.width
    ∧ (apply_filter assets img filter_name).height = img.height := by
  by_cases h1 : normalizeName filter_name = "grayscale".data
  · simp [apply_filter, h1, grayscaleRGB]
  by_cases h2 : normalizeName filter_name = "sepia".data
  · simp [apply_filter, h1, h2, sepiaImg]
  by_cases h3 : normalizeName filter_name = "blur".data
  · simp [apply_filter, h1, h2, h3, gaussian_blur]
  by_cases h4 : normalizeName filter_name = "bright".data
  · simp [apply_filter, h1, h2, h3, h4, brightnessImg]
  by_cases h5 : normalizeName filter_name = "contrast".data
  · simp [apply_filter, h1, h2, h3, h4, h5, contrastImg]
  rcases hA : assets (normalizeName filter_name) with _ | ov
  · simp [apply_filter, h1, h2, h3, h4, h5, hA]
  · simp [apply_filter, h1, h2, h3, h4, h5, hA, paste_rgba]

theorem apply_filter_preserves_dims_witness :
    (apply_filter
        (fun n => if n = "dog".data then some ⟨2, 1, fun _ _ => (0, 0, 0, 255)⟩ else none)
        ⟨4, 4, fun _ _ => (0, 0, 0)⟩ ("dog".data)).width = 4
    ∧ (apply_filter
        (fun n => if n = "dog".data then some ⟨2, 1, fun _ _ => (0, 0, 0, 255)⟩ else none)
        ⟨4, 4, fun _ _ => (0, 0, 0)⟩ ("dog".data)).height = 4 :=
  apply_filter_preserves_dims
    (fun n => if n = "dog".data then some ⟨2, 1, fun _ _ => (0, 0, 0, 255)⟩ else none)
    ⟨4, 4, fun _ _ => (0, 0, 0)⟩ ("dog".data) (Or.inr (by decide))

/-- C8: for the `dog` overlay on a 1000×800 base image the overlay's
top-left corner is pasted at exactly (200, 32) = (1000 // 5, 800 // 25). -/
theorem dog_anchor_1000x800 (ow oh : Nat) :
    overlay_pos ("dog".data) 1000 800 ow oh = ((200 : Int), (32 : Int)) := by
  unfold overlay_pos
  rw [if_pos rfl]
  decide

/-! ### Claims about the caption renderer -/

theorem toUpper_space {c : Char} (h : pyIsSpace c = true) : Char.toUpper c = c := by
  have hd : c = ' ' ∨ c = '\t' ∨ c = '\n' ∨ c = '\r' ∨ c = '\x0b' ∨ c = '\x0c' := by
    simpa [pyIsSpace, or_assoc] using h
  rcases hd with h1 | h1 | h1 | h1 | h1 | h1 <;> subst h1 <;> decide

theorem pyWordsAux_all_space :
    ∀ (s : List Char), (∀ c ∈ s, pyIsSpace c = true) → pyWordsAux s [] = []
  | [], _ => rfl
  | c :: cs, h => by
    have hc : pyIsSpace c = true := h c (List.mem_cons_self c cs)
    have hcs := pyWordsAux_all_space cs (fun d hd => h d (List.mem_cons_of_mem c hd))
    simp [pyWordsAux, hc, hcs]

/-- C9: for whitespace-only (in particular empty) caption text the
renderer draws nothing and still returns the encoded input image at
quality 92, for every font loader and every font metric — so the embedded
function is total on this input and its only font-related behavior is the
fallback to the default font when no candidate loads. -/
theorem caption_empty_text_safe {F : Type} (loader : List Char → Option F) (deflt : F)
    (metrics : F → RenderCtx) (image : Image) (text position : List Char)
    (h : ∀ c ∈ text, pyIsSpace c = true) :
    draw_caption_on_image loader deflt metrics image text position = ⟨image, 92⟩
    ∧ ((∀ cand, loader cand = none) → resolve_font loader deflt = deflt) := by
  constructor
  · have hup : ∀ c ∈ pyUpper text, pyIsSpace c = true := by
      intro c hc
      rw [pyUpper, List.mem_map] at hc
      obtain ⟨d, hd, rfl⟩ := hc
      rw [toUpper_space (h d hd)]
      exact h d hd
    have hw : pyWords (pyUpper text) = [] := pyWordsAux_all_space _ hup
    simp [draw_caption_on_image, wrap_text, hw, wrapAux]
  · intro hnone
    unfold resolve_font
    rw [List.findSome?_eq_none_iff.2 (fun x _ => hnone x)]

/-- Degenerate text-rendering capabilities used to instantiate C9. -/
def demoCtx : RenderCtx := ⟨fun _ => 0, 10, fun i _ _ _ _ => i⟩

/-! ### C7: idempotence of the greedy word wrap

The key structure: `wrap_text` depends only on the word list of its input;
its output lines are the space-joins of consecutive word chunks; splitting
the space-join of those lines recovers exactly the original word list. -/

/-- A word produced by `split()`: non-empty and whitespace-free. -/
def goodWord (w : List Char) : Prop := w ≠ [] ∧ ∀ c ∈ w, pyIsSpace c = false

theorem pyWordsAux_good :
    ∀ (s cur : List Char), (∀ c ∈ cur, pyIsSpace c = false) →
      ∀ w ∈ pyWordsAux s cur, goodWord w
  | [], cur, hcur => by
    intro w hw
    by_cases h : cur = []
    · simp [pyWordsAux, h] at hw
    · simp [pyWordsAux, h] at hw
      subst hw
      refine ⟨by simpa using h, ?_⟩
      intro c hc
      exact hcur c (List.mem_reverse.1 hc)
  | c :: cs, cur, hcur => by
    intro w hw
    rw [pyWordsAux] at hw
    by_cases hc : pyIsSpace c = true
    · rw [if_pos hc] at hw
      by_cases hcur0 : cur = []
      · rw [if_pos hcur0] at hw
        exact pyWordsAux_good cs [] (by simp) w hw
      · rw [if_neg hcur0] at hw
        rcases List.mem_cons.1 hw with rfl | hw'
        · refine ⟨by simpa using hcur0, ?_⟩
          intro d hd
          exact hcur d (List.mem_reverse.1 hd)
        · exact pyWordsAux_good cs [] (by simp) w hw'
    · rw [if_neg hc] at hw
      refine pyWordsAux_good cs (c :: cur) ?_ w hw
      intro d hd
      rcases List.mem_cons.1 hd with rfl | hd'
      · exact Bool.not_eq_true _ ▸ (by simpa using hc)
      · exact hcur d hd'

theorem pyWordsAux_append_nonspace :
    ∀ (w : List Char), (∀ c ∈ w, pyIsSpace c = false) →
      ∀ (s cur : List Char), pyWordsAux (w ++ s) cur = pyWordsAux s (w.reverse ++ cur)
  | [], _, s, cur => by simp
  | c :: w', hw, s, cur => by
    have hc : pyIsSpace c = false := hw c (List.mem_cons_self c w')
    rw [List.cons_append, pyWordsAux, if_neg (by simp [hc]),
      pyWordsAux_append_nonspace w' (fun d hd => hw d (List.mem_cons_of_mem c hd)) s (c :: cur)]
    congr 1
    simp

theorem pyWords_joinSp :
    ∀ (ws : List (List Char)), (∀ w ∈ ws, goodWord w) → pyWords (joinSp ws) = ws
  | [], _ => rfl
  | [w], h => by
    have hw : goodWord w := h w (List.mem_cons_self w [])
    show pyWordsAux (joinSp [w]) [] = [w]
    have : joinSp [w] = w ++ [] := by simp [joinSp]
    rw [this, pyWordsAux_append_nonspace w hw.2 [] []]
    simp [pyWordsAux, hw.1]
  | w :: v :: vs, h => by
    have hw : goodWord w := h w (List.mem_cons_self _ _)
    have hrest : ∀ u ∈ v :: vs, goodWord u := fun u hu => h u (List.mem_cons_of_mem _ hu)
    show pyWordsAux (joinSp (w :: v :: vs)) [] = w :: v :: vs
    rw [joinSp, pyWordsAux_append_nonspace w hw.2 (' ' :: joinSp (v :: vs)) []]
    rw [pyWordsAux, if_pos (by rfl : pyIsSpace ' ' = true),
      if_neg (by simpa using hw.1)]
    rw [List.append_nil, List.reverse_reverse]
    exact congrArg (w :: ·) (pyWords_joinSp (v :: vs) hrest)

theorem joinSp_append :
    ∀ (a b : List (List Char)), a ≠ [] → b ≠ [] →
      joinSp (a ++ b) = joinSp a ++ ' ' :: joinSp b
  | [], _, ha, _ => absurd rfl ha
  | [x], b, _, hb => by
    cases b with
    | nil => exact absurd rfl hb
    | cons y ys => rfl
  | x :: y :: ys, b, _, hb => by
    have ih := joinSp_append (y :: ys) b (by simp) hb
    rw [List.cons_append] at ih
    rw [List.cons_append, List.cons_append, joinSp, ih, joinSp]
    simp [List.append_assoc]

theorem joinSp_map_joinSp :
    ∀ (css : List (List (List Char))), (∀ cc ∈ css, cc ≠ []) →
      joinSp (css.map joinSp) = joinSp css.flatten
  | [], _ => rfl
  | [cc], _ => by
    show joinSp [joinSp cc] = joinSp (cc ++ [])
    rw [List.append_nil]
    rfl
  | cc :: dd :: dds, h => by
    have hcc : cc ≠ [] := h cc (List.mem_cons_self _ _)
    have hdd : dd ≠ [] := h dd (List.mem_cons_of_mem _ (List.mem_cons_self _ _))
    have hrest : ∀ u ∈ dd :: dds, u ≠ [] := fun u hu => h u (List.mem_cons_of_mem _ hu)
    have hjoin_ne : (dd :: dds).flatten ≠ [] := by
      rw [List.flatten_cons]
      intro habs
      exact hdd (List.append_eq_nil.1 habs).1
    show joinSp (joinSp cc :: (dd :: dds).map joinSp) = joinSp ((cc :: dd :: dds).flatten)
    rw [List.flatten_cons]
    rw [joinSp_append cc (dd :: dds).flatten hcc hjoin_ne]
    have hmapne : (dd :: dds).map joinSp ≠ [] := by simp
    rcases hm : (dd :: dds).map joinSp with _ | ⟨z, zs⟩
    · exact absurd hm hmapne
    · rw [joinSp]
      rw [← hm, joinSp_map_joinSp (dd :: dds) hrest]

theorem chunkAux_join (tw : List Char → Nat) (limit : Nat) :
    ∀ (ws cur : List (List Char)), (chunkAux tw limit ws cur).flatten = cur ++ ws
  | [], cur => by
    by_cases h : cur = [] <;> simp [chunkAux, h]
  | w :: ws, cur => by
    rw [chunkAux]
    split
    · rw [chunkAux_join tw limit ws (cur ++ [w])]
      simp
    · split
      · next hcur =>
        rw [chunkAux_join tw limit ws [w]]
        simp [hcur]
      · rw [List.flatten_cons, chunkAux_join tw limit ws [w]]
        simp

theorem chunkAux_chunks (tw : List Char → Nat) (limit : Nat) :
    ∀ (ws cur : List (List Char)), (∀ w ∈ ws, goodWord w) → (∀ w ∈ cur, goodWord w) →
      ∀ cc ∈ chunkAux tw limit ws cur, cc ≠ [] ∧ ∀ w ∈ cc, goodWord w
  | [], cur, _, hcur => by
    intro cc hcc
    by_cases h : cur = []
    · simp [chunkAux, h] at hcc
    · simp [chunkAux, h] at hcc
      subst hcc
      exact ⟨h, hcur⟩
  | w :: ws, cur, hws, hcur => by
    intro cc hcc
    have hw : goodWord w := hws w (List.mem_cons_self _ _)
    have hws' : ∀ v ∈ ws, goodWord v := fun v hv => hws v (List.mem_cons_of_mem _ hv)
    rw [chunkAux] at hcc
    split at hcc
    · refine chunkAux_chunks tw limit ws (cur ++ [w]) hws' ?_ cc hcc
      intro v hv
      rcases List.mem_append.1 hv with hv' | hv'
      · exact hcur v hv'
      · rw [List.mem_singleton.1 hv']
        exact hw
    · split at hcc
      · exact chunkAux_chunks tw limit ws [w] hws'
          (fun v hv => by rw [List.mem_singleton.1 hv]; exact hw) cc hcc
      · next hcur0 =>
        rcases List.mem_cons.1 hcc with rfl | hcc'
        · exact ⟨hcur0, hcur⟩
        · exact chunkAux_chunks tw limit ws [w] hws'
            (fun v hv => by rw [List.mem_singleton.1 hv]; exact hw) cc hcc'

theorem dropWhile_eq_self_of_head {p : Char → Bool} {s : List Char}
    (h : ∀ c, s.head? = some c → p c = false) : s.dropWhile p = s := by
  cases s with
  | nil => rfl
  | cons c cs => exact List.dropWhile_cons_of_neg (by simp [h c rfl])

theorem pyStripWS_noop {s : List Char}
    (h1 : ∀ c, s.head? = some c → pyIsSpace c = false)
    (h2 : ∀ c, s.getLast? = some c → pyIsSpace c = false) : pyStripWS s = s := by
  unfold pyStripWS
  rw [dropWhile_eq_self_of_head h1,
    dropWhile_eq_self_of_head (fun c hc => h2 c (by rwa [List.head?_reverse] at hc)),
    List.reverse_reverse]

theorem good_head {w : List Char} (hw : goodWord w) :
    ∀ c, w.head? = some c → pyIsSpace c = false := by
  intro c hc
  cases w with
  | nil => simp at hc
  | cons a as =>
    simp only [List.head?_cons, Option.some.injEq] at hc
    rw [← hc]
    exact hw.2 a (List.mem_cons_self _ _)

theorem good_last {w : List Char} (hw : goodWord w) :
    ∀ c, w.getLast? = some c → pyIsSpace c = false := by
  intro c hc
  rw [← List.head?_reverse] at hc
  refine hw.2 c (List.mem_reverse.1 ?_)
  cases hr : w.reverse with
  | nil => rw [hr] at hc; simp at hc
  | cons a as =>
    rw [hr] at hc
    simp only [List.head?_cons, Option.some.injEq] at hc
    rw [← hc]
    exact List.mem_cons_self _ _

theorem joinSp_ne_nil {cur : List (List Char)}
    (hcur : ∀ w ∈ cur, goodWord w) (h : cur ≠ []) : joinSp cur ≠ [] := by
  cases cur with
  | nil => exact absurd rfl h
  | cons u us =>
    have hu : u ≠ [] := (hcur u (List.mem_cons_self _ _)).1
    cases us with
    | nil => simpa [joinSp] using hu
    | cons v vs =>
      rw [joinSp]
      intro habs
      exact hu (List.append_eq_nil.1 habs).1

theorem joinSp_head {cur : List (List Char)} (hcur : ∀ w ∈ cur, goodWord w) :
    ∀ c, (joinSp cur).head? = some c → pyIsSpace c = false := by
  intro c hc
  cases cur with
  | nil => simp [joinSp] at hc
  | cons u us =>
    have hu : goodWord u := hcur u (List.mem_cons_self _ _)
    cases us with
    | nil => exact good_head hu c hc
    | cons v vs =>
      rw [joinSp] at hc
      rcases hu' : u with _ | ⟨a, as⟩
      · exact absurd hu' hu.1
      · rw [hu'] at hc
        simp only [List.cons_append, List.head?_cons, Option.some.injEq] at hc
        rw [← hc]
        exact hu.2 a (by rw [hu']; exact List.mem_cons_self _ _)

theorem getLast?_append_cons (x : List Char) (c : Char) (w : List Char) :
    (x ++ c :: w).getLast? = (c :: w).getLast? := by
  rw [← List.head?_reverse, ← List.head?_reverse, List.reverse_append]
  rcases hr : (c :: w).reverse with _ | ⟨a, as⟩
  · have : (c :: w).reverse ≠ [] := by simp
    exact absurd hr this
  · simp

theorem trial_eq_joinSp {cur : List (List Char)} (hcur : ∀ w ∈ cur, goodWord w)
    {w : List Char} (hw : goodWord w) :
    pyStripWS (joinSp cur ++ ' ' :: w) = joinSp (cur ++ [w]) := by
  cases hc : cur with
  | nil =>
    show pyStripWS ([] ++ ' ' :: w) = joinSp [w]
    simp only [List.nil_append]
    have hj : joinSp [w] = w := rfl
    rw [hj]
    unfold pyStripWS
    rw [List.dropWhile_cons_of_pos (by rfl : pyIsSpace ' ' = true),
      dropWhile_eq_self_of_head (good_head hw),
      dropWhile_eq_self_of_head (fun c h => good_last hw c (by rwa [List.head?_reverse] at h)),
      List.reverse_reverse]
  | cons u us =>
    rw [← hc]
    have hcne : cur ≠ [] := by rw [hc]; simp
    have hj : joinSp (cur ++ [w]) = joinSp cur ++ ' ' :: joinSp [w] :=
      joinSp_append cur [w] hcne (by simp)
    have hjw : joinSp [w] = w := rfl
    rw [hj, hjw]
    apply pyStripWS_noop
    · intro c hcHead
      rcases hju : joinSp cur with _ | ⟨a, as⟩
      · exact absurd hju (joinSp_ne_nil hcur hcne)
      · rw [hju] at hcHead
        simp only [List.cons_append, List.head?_cons, Option.some.injEq] at hcHead
        rw [← hcHead]
        exact joinSp_head hcur a (by rw [hju]; rfl)
    · intro c hcLast
      rw [getLast?_append_cons] at hcLast
      rcases hwc : w with _ | ⟨b, bs⟩
      · exact absurd hwc hw.1
      · rw [hwc, List.getLast?_cons_cons] at hcLast
        exact good_last hw c (by rw [hwc]; exact hcLast)

theorem wrapAux_eq_chunkAux (tw : List Char → Nat) (limit : Nat) :
    ∀ (ws cur : List (List Char)), (∀ w ∈ ws, goodWord w) → (∀ w ∈ cur, goodWord w) →
      wrapAux tw limit ws (joinSp cur) = (chunkAux tw limit ws cur).map joinSp
  | [], cur, _, hcur => by
    rw [wrapAux, chunkAux]
    by_cases h : cur = []
    · rw [if_pos (by rw [h]; rfl), if_pos h]
      rfl
    · rw [if_neg (joinSp_ne_nil hcur h), if_neg h]
      rfl
  | w :: ws, cur, hws, hcur => by
    have hw : goodWord w := hws w (List.mem_cons_self _ _)
    have hws' : ∀ v ∈ ws, goodWord v := fun v hv => hws v (List.mem_cons_of_mem _ hv)
    have hcur' : ∀ v ∈ cur ++ [w], goodWord v := by
      intro v hv
      rcases List.mem_append.1 hv with hv' | hv'
      · exact hcur v hv'
      · rw [List.mem_singleton.1 hv']
        exact hw
    have hsingle : ∀ v ∈ [w], goodWord v :=
      fun v hv => by rw [List.mem_singleton.1 hv]; exact hw
    simp only [wrapAux, chunkAux]
    rw [trial_eq_joinSp hcur hw]
    by_cases hle : tw (joinSp (cur ++ [w])) ≤ limit
    · rw [if_pos hle, if_pos hle]
      exact wrapAux_eq_chunkAux tw limit ws (cur ++ [w]) hws' hcur'
    · rw [if_neg hle, if_neg hle]
      by_cases hc : cur = []
      · rw [if_pos (by rw [hc]; rfl), if_pos hc]
        have hrec := wrapAux_eq_chunkAux tw limit ws [w] hws' hsingle
        rw [show joinSp [w] = w from rfl] at hrec
        exact hrec
      · rw [if_neg (joinSp_ne_nil hcur hc), if_neg hc]
        rw [List.map_cons]
        have hrec := wrapAux_eq_chunkAux tw limit ws [w] hws' hsingle
        rw [show joinSp [w] = w from rfl] at hrec
        rw [hrec]

/-- C7: the greedy word wrap is idempotent — re-wrapping the space-join of
the produced lines, with the same text-width function and the same limit,
reproduces exactly the same line partition.  This holds for EVERY width
function, hence in particular for the font's `draw.textbbox` width at the
`int(W * 0.9)` limit. -/
theorem wrap_text_idempotent (tw : List Char → Nat) (limit : Nat) (txt : List Char) :
    wrap_text tw limit (joinSp (wrap_text tw limit txt)) = wrap_text tw limit txt := by
  have hgood : ∀ w ∈ pyWords txt, goodWord w := pyWordsAux_good txt [] (by simp)
  have h1 : wrap_text tw limit txt
      = (chunkAux tw limit (pyWords txt) []).map joinSp := by
    rw [wrap_text]
    have h := wrapAux_eq_chunkAux tw limit (pyWords txt) [] hgood (by simp)
    rw [show joinSp [] = [] from rfl] at h
    exact h
  have hchunks : ∀ cc ∈ chunkAux tw limit (pyWords txt) [],
      cc ≠ [] ∧ ∀ w ∈ cc, goodWord w :=
    chunkAux_chunks tw limit (pyWords txt) [] hgood (by simp)
  have h2 : joinSp ((chunkAux tw limit (pyWords txt) []).map joinSp)
      = joinSp (chunkAux tw limit (pyWords txt) []).flatten :=
    joinSp_map_joinSp _ (fun cc hcc => (hchunks cc hcc).1)
  have h3 : (chunkAux tw limit (pyWords txt) []).flatten = pyWords txt := by
    rw [chunkAux_join]
    rfl
  have h4 : ∀ w ∈ (chunkAux tw limit (pyWords txt) []).flatten, goodWord w := by
    rw [h3]
    exact hgood
  have h5 : pyWords (joinSp (chunkAux tw limit (pyWords txt) []).flatten)
      = (chunkAux tw limit (pyWords txt) []).flatten :=
    pyWords_joinSp _ h4
  rw [h1, h2, wrap_text, h5, h3]
  have h := wrapAux_eq_chunkAux tw limit (pyWords txt) [] hgood (by simp)
  rw [show joinSp [] = [] from rfl] at h
  exact h

theorem caption_empty_text_safe_witness :
    draw_caption_on_image (fun _ => (none : Option Unit)) () (fun _ => demoCtx)
        ⟨4, 4, fun _ _ => (0, 0, 0)⟩ (" ".data) ("bottom".data)
      = ⟨⟨4, 4, fun _ _ => (0, 0, 0)⟩, 92⟩
    ∧ resolve_font (fun _ => (none : Option Unit)) () = () := by
  have h := caption_empty_text_safe (fun _ => (none : Option Unit)) () (fun _ => demoCtx)
    ⟨4, 4, fun _ _ => (0, 0, 0)⟩ (" ".data) ("bottom".data) (by decide)
  exact ⟨h.1, h.2 (fun _ => rfl)⟩
